import Mathlib

/-!
Shallow embedding of the bone auto-mapping and animation retargeting core of
the player-editor repository.

Two parallel implementations exist in the source:
  * `src/services/babylonService.ts`  — embedded below in namespace `babylonService`;
  * `src/components/BabylonCanvas.tsx` — embedded below in namespace `BabylonCanvas`.

Bone names are strings.  A target skeleton is modelled as the list of its
bone names (the matching/retargeting code only ever reads `bone.name`).
A JS `Record<string, string>` is modelled as an association list with
insertion-order append and in-place overwrite (`recordSet` / `recordGet`),
matching JS object key semantics.  A JS `Set` is modelled by a list used
only through membership (`∈`), with `dedupFirst` mirroring `new Set(array)`
insertion-order deduplication.
-/

/-- Substring test on character lists: does `hay` contain `needle`
(JS `String.prototype.includes`)? -/
def charsPrefixOf : List Char → List Char → Bool
  | [], _ => true
  | _ :: _, [] => false
  | c :: cs, d :: ds => c = d && charsPrefixOf cs ds

def charsContains : List Char → List Char → Bool
  | [], needle => needle.isEmpty
  | h :: t, needle => charsPrefixOf needle (h :: t) || charsContains t needle

/-- JS `hay.includes(needle)` on strings. -/
def subStr (needle hay : String) : Bool :=
  charsContains hay.data needle.data

/-- JS object field read `m[k]`: first entry with key `k`, if any. -/
def recordGet : List (String × String) → String → Option String
  | [], _ => none
  | p :: rest, k => if p.fst = k then some p.snd else recordGet rest k

/-- JS object field write `m[k] = v`: overwrite in place if the key exists,
otherwise append (JS objects keep string-key insertion order). -/
def recordSet : List (String × String) → String → String → List (String × String)
  | [], k, v => [(k, v)]
  | p :: rest, k, v => if p.fst = k then (k, v) :: rest else p :: recordSet rest k v

/-- Mapping table from source bone names to target bone names. -/
abbrev Table := List (String × String)

/-- JS `new Set(l)` iteration order: first occurrences, in order. -/
def dedupGo : List String → List String → List String
  | [], _ => []
  | x :: xs, seen => if x ∈ seen then dedupGo xs seen else x :: dedupGo xs (x :: seen)

def dedupFirst (l : List String) : List String := dedupGo l []

/-- JS `skeleton.bones.find(b => b.name === t)`, on a skeleton modelled by
its list of bone names. -/
def findBone : List String → String → Option String
  | [], _ => none
  | b :: rest, t => if b = t then some b else findBone rest t

/-- Left / right / center side derived from a bone name. -/
inductive Side where
  | left
  | right
  | center
deriving DecidableEq, Repr

/-- Result of `getBoneFeatures`: keyword tags found in the name plus a side. -/
structure Features where
  keywords : List String
  side : Side
deriving DecidableEq, Repr

/-- Function normalizeBoneName: lower-case and strip the characters `-`, `_`, `.`, `:`
(identical in both source files). -/
def normalizeBoneName (name : String) : String :=
  String.mk ((name.data.map Char.toLower).filter
    (fun c => !(c = '-' || c = '_' || c = '.' || c = ':')))

def sideIdentifiersLeft : List String := ["l", "left"]

def sideIdentifiersRight : List String := ["r", "right"]

/-- Side detection loop of `getBoneFeatures`: left markers first, then right,
otherwise center (identical in both source files). -/
def getSide (normalizedName : String) : Side :=
  if sideIdentifiersLeft.any (fun s => subStr s normalizedName) then Side.left
  else if sideIdentifiersRight.any (fun s => subStr s normalizedName) then Side.right
  else Side.center

/-- Keyword detection loop of `getBoneFeatures`: a standard tag is added when
any of its variant substrings occurs in the normalized name. -/
def keywordsOf (kmap : List (String × List String)) (n : String) : List String :=
  (kmap.filter (fun p => p.snd.any (fun v => subStr v n))).map Prod.fst

/-- Count of keywords present in both feature sets (the `keywordMatches`
loop of `getScore`). -/
def keywordMatches (sf tf : Features) : Nat :=
  (sf.keywords.filter (fun k => decide (k ∈ tf.keywords))).length

/-- Track of an animation group: keyframe payload identity plus the name of
the bone it targets. -/
structure Track where
  anim : Nat
  boneName : String
deriving DecidableEq, Repr

/-- Animation group: name, targeted tracks and the `[from, to]` play range. -/
structure AnimGroup where
  name : String
  tracks : List Track
  fromFrame : Int
  toFrame : Int
deriving DecidableEq, Repr

/-- Scored source/target candidate pair built by the service auto-mapper. -/
structure ScoredPair where
  source : String
  target : String
  score : Int
deriving DecidableEq, Repr

/-- Stable descending insertion by score: equal-score pairs keep their
original relative order, as JS `Array.prototype.sort` (stable) does with
comparator `(a, b) => b.score - a.score`. -/
def insertDesc (x : ScoredPair) : List ScoredPair → List ScoredPair
  | [] => [x]
  | y :: ys => if x.score > y.score then x :: y :: ys else y :: insertDesc x ys

def sortPairs (l : List ScoredPair) : List ScoredPair :=
  l.foldl (fun acc x => insertDesc x acc) []

/-- State threaded through the greedy and fallback passes of the service
auto-mapper: the mapping under construction plus the `mappedSources` and
`usedTargets` sets. -/
structure MapState where
  mapping : Table
  mappedSources : List String
  usedTargets : List String
deriving Repr

namespace babylonService

/-- Keyword vocabulary of `src/services/babylonService.ts`. -/
def boneKeywordMap : List (String × List String) :=
  [("head", ["head"]),
   ("neck", ["neck"]),
   ("spine", ["spine", "chest"]),
   ("hips", ["hips", "pelvis"]),
   ("leg", ["leg", "thigh", "shin"]),
   ("knee", ["knee"]),
   ("foot", ["foot"]),
   ("toes", ["toe", "toes"]),
   ("shoulder", ["shoulder", "clavicle", "breast", "pec"]),
   ("arm", ["arm", "bicep"]),
   ("elbow", ["elbow", "forearm"]),
   ("hand", ["hand", "wrist"]),
   ("finger", ["finger"]),
   ("thumb", ["thumb"]),
   ("index", ["index"]),
   ("middle", ["middle"]),
   ("ring", ["ring"]),
   ("pinky", ["pinky", "little"])]

def getBoneFeatures (normalizedName : String) : Features :=
  { keywords := keywordsOf boneKeywordMap normalizedName
    side := getSide normalizedName }

/-- Features of a raw (non-normalized) bone name. -/
def featuresOf (name : String) : Features :=
  getBoneFeatures (normalizeBoneName name)

/-- Side of a raw bone name. -/
def sideOf (name : String) : Side := (featuresOf name).side

/-- The `getScore` closure of `autoMapBones` in babylonService.ts. -/
def getScore (sf tf : Features) : Int :=
  let m : Int := (keywordMatches sf tf : Int)
  let tie : Int :=
    if sf.keywords.length > 0 ∧ tf.keywords.length > 0 ∧ keywordMatches sf tf = 0
    then 1 else 0
  if sf.side = tf.side then 50 + m * 20 + tie
  else if sf.side = Side.center ∨ tf.side = Side.center then 25 + m * 20 + tie
  else -1

/-- Step 1 of `autoMapBones`: all source×target pairs whose score exceeds
the viability threshold 1, in enumeration order (sources outer, deduplicated
target names inner). -/
def allPairs (sources targetNames : List String) : List ScoredPair :=
  sources.flatMap (fun sourceName =>
    let sourceFeatures := featuresOf sourceName
    targetNames.filterMap (fun targetName =>
      let score := getScore sourceFeatures (featuresOf targetName)
      if score > 1 then some ⟨sourceName, targetName, score⟩ else none))

/-- Step 3 of `autoMapBones`: commit a pair iff neither side is taken yet. -/
def greedyStep (st : MapState) (p : ScoredPair) : MapState :=
  if p.source ∉ st.mappedSources ∧ p.target ∉ st.usedTargets then
    { mapping := recordSet st.mapping p.source p.target
      mappedSources := p.source :: st.mappedSources
      usedTargets := p.target :: st.usedTargets }
  else st

def greedy (pairs : List ScoredPair) : MapState :=
  pairs.foldl greedyStep { mapping := [], mappedSources := [], usedTargets := [] }

/-- Step 4 of `autoMapBones`: fallback for a single still-unmapped source. -/
def fallbackStep (targetNames : List String) (st : MapState) (sourceName : String) :
    MapState :=
  if sourceName ∈ st.mappedSources then st
  else if sourceName ∈ targetNames ∧ sourceName ∉ st.usedTargets then
    { mapping := recordSet st.mapping sourceName sourceName
      mappedSources := st.mappedSources
      usedTargets := sourceName :: st.usedTargets }
  else
    { mapping := recordSet st.mapping sourceName sourceName
      mappedSources := st.mappedSources
      usedTargets := st.usedTargets }

def fallback (sources targetNames : List String) (st : MapState) : MapState :=
  sources.foldl (fallbackStep targetNames) st

/-- The greedy-pass state of `autoMapBones` (after steps 1–3). -/
def greedyState (sources targetSkeleton : List String) : MapState :=
  greedy (sortPairs (allPairs sources (dedupFirst targetSkeleton)))

/-- Function autoMapBones of babylonService.ts. -/
def autoMapBones (sourceBoneNames targetSkeleton : List String) : Table :=
  (fallback sourceBoneNames (dedupFirst targetSkeleton)
    (greedyState sourceBoneNames targetSkeleton)).mapping

/-- Body of the per-track loop of `retargetAnimationGroup`: the (zero or one)
retargeted tracks appended for one source track. -/
def retargetTrack (targetSkeleton : List String) (mapping : Table) (tr : Track) :
    List Track :=
  match recordGet mapping tr.boneName with
  | none => []
  | some targetBoneName =>
    if targetBoneName = "" then []
    else
      match findBone targetSkeleton targetBoneName with
      | some targetBone => [{ anim := tr.anim, boneName := targetBone }]
      | none => []

/-- Function retargetAnimationGroup of babylonService.ts: clone-and-rebind each
track with a truthy, resolvable mapping entry, then normalize the play range
to the source group's range. -/
def retargetAnimationGroup (src : AnimGroup) (targetSkeleton : List String)
    (mapping : Table) : AnimGroup :=
  { name := src.name
    tracks := src.tracks.foldl
      (fun acc tr => acc ++ retargetTrack targetSkeleton mapping tr) []
    fromFrame := src.fromFrame
    toFrame := src.toFrame }

end babylonService

namespace BabylonCanvas

/-- Keyword vocabulary of `src/components/BabylonCanvas.tsx` (its `shoulder`
entry lacks the `breast` and `pec` variants of the service version). -/
def boneKeywordMap : List (String × List String) :=
  [("head", ["head"]),
   ("neck", ["neck"]),
   ("spine", ["spine", "chest"]),
   ("hips", ["hips", "pelvis"]),
   ("leg", ["leg", "thigh", "shin"]),
   ("knee", ["knee"]),
   ("foot", ["foot"]),
   ("toes", ["toe", "toes"]),
   ("shoulder", ["shoulder", "clavicle"]),
   ("arm", ["arm", "bicep"]),
   ("elbow", ["elbow", "forearm"]),
   ("hand", ["hand", "wrist"]),
   ("finger", ["finger"]),
   ("thumb", ["thumb"]),
   ("index", ["index"]),
   ("middle", ["middle"]),
   ("ring", ["ring"]),
   ("pinky", ["pinky", "little"])]

def getBoneFeatures (normalizedName : String) : Features :=
  { keywords := keywordsOf boneKeywordMap normalizedName
    side := getSide normalizedName }

def featuresOf (name : String) : Features :=
  getBoneFeatures (normalizeBoneName name)

/-- The `getScore` closure of `autoMapBones` in BabylonCanvas.tsx: 100 for an
equal side, hard veto only when both sides are non-center and different, 10
per shared keyword, and +1 whenever both keyword sets are non-empty. -/
def getScore (sf tf : Features) : Int :=
  let m : Int := (keywordMatches sf tf : Int)
  let meaningful : Int :=
    if sf.keywords.length > 0 ∧ tf.keywords.length > 0 then 1 else 0
  if sf.side = tf.side then 100 + m * 10 + meaningful
  else if sf.side ≠ Side.center ∧ tf.side ≠ Side.center then -1
  else m * 10 + meaningful

/-- Inner loop of the canvas `autoMapBones`: best strictly-improving score
over the still-available target bones, starting from `bestScore = 0`. -/
def findBest (available : List String) (sf : Features) (targets : List String) :
    Option String × Int :=
  targets.foldl
    (fun acc targetName =>
      if targetName ∈ available then
        let score := getScore sf (featuresOf targetName)
        if score > acc.snd then (some targetName, score) else acc
      else acc)
    (none, 0)

/-- Body of the per-source loop of the canvas `autoMapBones`. -/
def mapStep (targets : List String) (st : Table × List String) (sourceName : String) :
    Table × List String :=
  let best := findBest st.snd (featuresOf sourceName) targets
  match best.fst with
  | some bestMatch =>
    if bestMatch ≠ "" ∧ best.snd > 0 then
      (recordSet st.fst sourceName bestMatch, st.snd.filter (fun t => t ≠ bestMatch))
    else (recordSet st.fst sourceName sourceName, st.snd)
  | none => (recordSet st.fst sourceName sourceName, st.snd)

/-- Function autoMapBones of BabylonCanvas.tsx. -/
def autoMapBones (sourceBoneNames targetSkeleton : List String) : Table :=
  (sourceBoneNames.foldl (mapStep targetSkeleton) ([], targetSkeleton)).fst

/-- Body of the per-track loop of the canvas `retargetAnimationGroup`: it
falls back to the source bone name when the mapping entry is absent or
empty (`mapping[sourceBoneName] || sourceBoneName`). -/
def retargetTrack (targetSkeleton : List String) (mapping : Table) (tr : Track) :
    List Track :=
  let targetBoneName :=
    match recordGet mapping tr.boneName with
    | some v => if v = "" then tr.boneName else v
    | none => tr.boneName
  match findBone targetSkeleton targetBoneName with
  | some targetBone => [{ anim := tr.anim, boneName := targetBone }]
  | none => []

/-- Function retargetAnimationGroup of BabylonCanvas.tsx. -/
def retargetAnimationGroup (src : AnimGroup) (targetSkeleton : List String)
    (mapping : Table) : AnimGroup :=
  { name := src.name
    tracks := src.tracks.foldl
      (fun acc tr => acc ++ retargetTrack targetSkeleton mapping tr) []
    fromFrame := src.fromFrame
    toFrame := src.toFrame }

end BabylonCanvas

/-! ## Basic lemmas about the record, dedup, find and sort helpers -/

/-- Keys of a mapping table, in order. -/
def keysOf (m : Table) : List String := m.map Prod.fst

lemma recordGet_mem {m : Table} {k v : String} (h : recordGet m k = some v) :
    (k, v) ∈ m := by
  induction m with
  | nil => simp [recordGet] at h
  | cons p rest ih =>
    by_cases hk : p.fst = k
    · simp [recordGet, hk] at h
      have hp : p = (k, v) := by
        cases p
        simp_all
      simp [hp]
    · simp [recordGet, hk] at h
      exact List.mem_cons_of_mem _ (ih h)

lemma mem_recordSet {m : Table} {k v : String} {p : String × String}
    (h : p ∈ recordSet m k v) : p ∈ m ∨ p = (k, v) := by
  induction m with
  | nil => simp [recordSet] at h; simp [h]
  | cons q rest ih =>
    by_cases hk : q.fst = k
    · simp [recordSet, hk] at h
      rcases h with h | h
      · right; simp [h]
      · left; exact List.mem_cons_of_mem _ h
    · simp [recordSet, hk] at h
      rcases h with h | h
      · left; simp [h]
      · rcases ih h with h2 | h2
        · left; exact List.mem_cons_of_mem _ h2
        · right; exact h2

lemma recordGet_recordSet_self (m : Table) (k v : String) :
    recordGet (recordSet m k v) k = some v := by
  induction m with
  | nil => simp [recordSet, recordGet]
  | cons q rest ih =>
    by_cases hk : q.fst = k
    · simp [recordSet, hk, recordGet]
    · simp [recordSet, hk, recordGet, ih]

lemma recordGet_recordSet_ne (m : Table) {a k : String} (v : String) (h : a ≠ k) :
    recordGet (recordSet m k v) a = recordGet m a := by
  have hka : ¬ k = a := fun hh => h hh.symm
  induction m with
  | nil => simp [recordSet, recordGet, hka]
  | cons q rest ih =>
    by_cases hq : q.fst = k
    · have hqa : ¬ q.fst = a := by rw [hq]; exact hka
      simp [recordSet, hq, recordGet, hka, hqa]
    · simp [recordSet, hq, recordGet, ih]

lemma recordGet_isSome_recordSet (m : Table) {a : String} (k v : String) :
    (recordGet (recordSet m k v) a).isSome = true ↔
      a = k ∨ (recordGet m a).isSome = true := by
  by_cases h : a = k
  · subst h
    simp [recordGet_recordSet_self]
  · simp [recordGet_recordSet_ne m v h, h]

lemma recordGet_eq_none_iff (m : Table) (k : String) :
    recordGet m k = none ↔ k ∉ keysOf m := by
  induction m with
  | nil => simp [recordGet, keysOf]
  | cons q rest ih =>
    by_cases hk : q.fst = k
    · simp [recordGet, hk, keysOf]
    · have hkq : ¬ k = q.fst := fun hh => hk hh.symm
      simp [recordGet, hk, keysOf, hkq] at ih ⊢
      exact ih

lemma keysOf_recordSet (m : Table) (k v : String) :
    keysOf (recordSet m k v) =
      if (recordGet m k).isSome then keysOf m else keysOf m ++ [k] := by
  induction m with
  | nil => simp [recordSet, recordGet, keysOf]
  | cons q rest ih =>
    by_cases hk : q.fst = k
    · simp [recordSet, hk, recordGet, keysOf]
    · simp only [recordSet, hk, if_false, recordGet, keysOf, List.map_cons]
      by_cases hs : (recordGet rest k).isSome
      · simp [keysOf, hs] at ih
        simp [hs, ih]
      · simp [keysOf, hs] at ih
        simp [hs, ih]

lemma nodup_keysOf_recordSet {m : Table} (k v : String)
    (h : (keysOf m).Nodup) : (keysOf (recordSet m k v)).Nodup := by
  rw [keysOf_recordSet]
  by_cases hs : (recordGet m k).isSome
  · simpa [hs] using h
  · have hnone : recordGet m k = none := by
      cases hrec : recordGet m k
      · rfl
      · simp [hrec] at hs
    have hnot : k ∉ keysOf m := (recordGet_eq_none_iff m k).mp hnone
    simp [hs, List.nodup_append, h, hnot]

lemma mem_keysOf {m : Table} {k : String} :
    k ∈ keysOf m ↔ ∃ v, (k, v) ∈ m := by
  constructor
  · intro h
    rcases List.mem_map.mp h with ⟨p, hp, hfst⟩
    exact ⟨p.snd, by cases p; simp_all⟩
  · rintro ⟨v, hv⟩
    exact List.mem_map.mpr ⟨(k, v), hv, rfl⟩

lemma recordGet_isSome_iff_mem_keysOf (m : Table) (k : String) :
    (recordGet m k).isSome = true ↔ k ∈ keysOf m := by
  constructor
  · intro h
    cases hrec : recordGet m k with
    | none => simp [hrec] at h
    | some v => exact mem_keysOf.mpr ⟨v, recordGet_mem hrec⟩
  · intro h
    cases hrec : recordGet m k with
    | none => exact absurd h ((recordGet_eq_none_iff m k).mp hrec)
    | some v => simp

lemma mem_dedupGo {a : String} : ∀ {l seen : List String},
    a ∈ dedupGo l seen ↔ a ∈ l ∧ a ∉ seen := by
  intro l
  induction l with
  | nil => intro seen; simp [dedupGo]
  | cons x xs ih =>
    intro seen
    by_cases hx : x ∈ seen
    · rw [dedupGo, if_pos hx, ih]
      constructor
      · rintro ⟨h1, h2⟩
        exact ⟨List.mem_cons_of_mem _ h1, h2⟩
      · rintro ⟨h1, h2⟩
        rcases List.mem_cons.mp h1 with h3 | h3
        · exact absurd (h3 ▸ hx) h2
        · exact ⟨h3, h2⟩
    · rw [dedupGo, if_neg hx]
      constructor
      · intro h
        rcases List.mem_cons.mp h with h3 | h3
        · exact ⟨List.mem_cons.mpr (Or.inl h3), h3 ▸ hx⟩
        · rcases ih.mp h3 with ⟨h4, h5⟩
          exact ⟨List.mem_cons.mpr (Or.inr h4),
            fun hs => h5 (List.mem_cons_of_mem _ hs)⟩
      · rintro ⟨h1, h2⟩
        rcases List.mem_cons.mp h1 with h3 | h3
        · exact List.mem_cons.mpr (Or.inl h3)
        · by_cases hax : a = x
          · exact List.mem_cons.mpr (Or.inl hax)
          · refine List.mem_cons.mpr (Or.inr (ih.mpr ⟨h3, ?_⟩))
            intro hs
            rcases List.mem_cons.mp hs with h4 | h4
            · exact hax h4
            · exact h2 h4

lemma mem_dedupFirst {a : String} {l : List String} :
    a ∈ dedupFirst l ↔ a ∈ l := by
  simp [dedupFirst, mem_dedupGo]

lemma nodup_dedupGo : ∀ (l seen : List String), (dedupGo l seen).Nodup := by
  intro l
  induction l with
  | nil => intro seen; simp [dedupGo]
  | cons x xs ih =>
    intro seen
    by_cases hx : x ∈ seen
    · rw [dedupGo, if_pos hx]
      exact ih seen
    · rw [dedupGo, if_neg hx]
      refine List.nodup_cons.mpr ⟨?_, ih (x :: seen)⟩
      intro hmem
      exact (mem_dedupGo.mp hmem).2 (List.mem_cons_self x seen)

lemma nodup_dedupFirst (l : List String) : (dedupFirst l).Nodup :=
  nodup_dedupGo l []

lemma findBone_eq (skel : List String) (t : String) :
    findBone skel t = if t ∈ skel then some t else none := by
  induction skel with
  | nil => simp [findBone]
  | cons b rest ih =>
    by_cases hb : b = t
    · simp [findBone, hb]
    · have htb : ¬ t = b := fun hh => hb hh.symm
      simp [findBone, hb, ih, htb]

lemma mem_insertDesc {p x : ScoredPair} : ∀ {l : List ScoredPair},
    p ∈ insertDesc x l ↔ p = x ∨ p ∈ l := by
  intro l
  induction l with
  | nil => simp [insertDesc]
  | cons y ys ih =>
    by_cases hgt : x.score > y.score
    · simp [insertDesc, hgt]
    · simp only [insertDesc, hgt, if_false, List.mem_cons, ih]
      tauto

lemma mem_sortPairs {p : ScoredPair} {l : List ScoredPair}
    (h : p ∈ sortPairs l) : p ∈ l := by
  suffices hgen : ∀ (l acc : List ScoredPair),
      p ∈ l.foldl (fun a x => insertDesc x a) acc → p ∈ acc ∨ p ∈ l by
    rcases hgen l [] h with h2 | h2
    · simp at h2
    · exact h2
  intro l
  induction l with
  | nil => intro acc h2; exact Or.inl h2
  | cons x xs ih =>
    intro acc h2
    rcases ih (insertDesc x acc) h2 with h3 | h3
    · rcases mem_insertDesc.mp h3 with h4 | h4
      · exact Or.inr (by simp [h4])
      · exact Or.inl h4
    · exact Or.inr (List.mem_cons_of_mem _ h3)

lemma foldl_append_eq {α β : Type} (l : List α) (g : α → List β) (acc : List β) :
    l.foldl (fun a x => a ++ g x) acc = acc ++ l.flatMap g := by
  induction l generalizing acc with
  | nil => simp
  | cons x xs ih => simp [ih, List.append_assoc]

lemma flatMap_toList_eq_filterMap {α β : Type} (l : List α) (f : α → Option β) :
    l.flatMap (fun x => (f x).toList) = l.filterMap f := by
  induction l with
  | nil => simp
  | cons x xs ih =>
    cases h : f x <;> simp [h, ih]

lemma length_filterMap_le_length {α β : Type} (f : α → Option β) (l : List α) :
    (l.filterMap f).length ≤ l.length := by
  induction l with
  | nil => simp
  | cons x xs ih =>
    cases h : f x <;> simp [h] <;> omega

lemma length_filterMap_eq_iff {α β : Type} {l : List α} {f : α → Option β} :
    (l.filterMap f).length = l.length ↔ ∀ x ∈ l, (f x).isSome = true := by
  induction l with
  | nil => simp
  | cons x xs ih =>
    cases h : f x with
    | none =>
      simp only [List.filterMap_cons, h, List.length_cons]
      constructor
      · intro hlen
        exact absurd hlen (by
          have := length_filterMap_le_length f xs
          omega)
      · intro hall
        have := hall x (by simp)
        simp [h] at this
    | some b =>
      simp only [List.filterMap_cons, h, List.length_cons]
      constructor
      · intro hlen
        intro y hy
        rcases List.mem_cons.mp hy with hy | hy
        · simp [hy, h]
        · exact (ih.mp (by omega)) y hy
      · intro hall
        have := ih.mpr (fun y hy => hall y (List.mem_cons_of_mem _ hy))
        omega

/-! ## Invariants of the service auto-mapper -/

namespace babylonService

lemma allPairs_mem {sources targetNames : List String} {p : ScoredPair}
    (h : p ∈ allPairs sources targetNames) :
    p.source ∈ sources ∧ p.target ∈ targetNames ∧
      p.score = getScore (featuresOf p.source) (featuresOf p.target) ∧
      p.score > 1 := by
  rcases List.mem_flatMap.mp h with ⟨s, hs, hp⟩
  rcases List.mem_filterMap.mp hp with ⟨t, ht, hpt⟩
  by_cases hsc : getScore (featuresOf s) (featuresOf t) > 1
  · simp only [hsc, if_pos] at hpt
    cases hpt
    exact ⟨hs, ht, rfl, hsc⟩
  · simp [hsc] at hpt

/-- Structural invariant maintained by the greedy pass. -/
def GInv (st : MapState) : Prop :=
  (∀ pr ∈ st.mapping, pr.fst ∈ st.mappedSources ∧ pr.snd ∈ st.usedTargets) ∧
  (∀ k ∈ st.mappedSources, (recordGet st.mapping k).isSome = true) ∧
  (keysOf st.mapping).Nodup ∧
  (∀ pr qr, pr ∈ st.mapping → qr ∈ st.mapping → pr.snd = qr.snd → pr.fst = qr.fst)

lemma GInv_init : GInv { mapping := [], mappedSources := [], usedTargets := [] } := by
  refine ⟨?_, ?_, ?_, ?_⟩ <;> simp [keysOf]

lemma GInv_greedyStep {st : MapState} (p : ScoredPair) (h : GInv st) :
    GInv (greedyStep st p) := by
  obtain ⟨h1, h2, h3, h4⟩ := h
  rw [greedyStep]
  by_cases hc : p.source ∉ st.mappedSources ∧ p.target ∉ st.usedTargets
  · rw [if_pos hc]
    have hnone : recordGet st.mapping p.source = none := by
      cases hrec : recordGet st.mapping p.source with
      | none => rfl
      | some v =>
        exact absurd ((h1 _ (recordGet_mem hrec)).1) hc.1
    refine ⟨?_, ?_, ?_, ?_⟩
    · intro pr hpr
      rcases mem_recordSet hpr with hold | hnew
      · rcases h1 pr hold with ⟨ha, hb⟩
        exact ⟨List.mem_cons_of_mem _ ha, List.mem_cons_of_mem _ hb⟩
      · rw [hnew]
        exact ⟨List.mem_cons_self _ _, List.mem_cons_self _ _⟩
    · intro k hk
      rcases List.mem_cons.mp hk with hk | hk
      · rw [hk, recordGet_recordSet_self]
        rfl
      · rw [recordGet_isSome_recordSet]
        exact Or.inr (h2 k hk)
    · exact nodup_keysOf_recordSet _ _ h3
    · intro pr qr hpr hqr hsnd
      rcases mem_recordSet hpr with hp1 | hp1 <;> rcases mem_recordSet hqr with hq1 | hq1
      · exact h4 pr qr hp1 hq1 hsnd
      · exfalso
        rcases h1 pr hp1 with ⟨_, hb⟩
        rw [hq1] at hsnd
        rw [hsnd] at hb
        exact hc.2 hb
      · exfalso
        rcases h1 qr hq1 with ⟨_, hb⟩
        rw [hp1] at hsnd
        rw [← hsnd] at hb
        exact hc.2 hb
      · rw [hp1, hq1]
  · rw [if_neg hc]
    exact ⟨h1, h2, h3, h4⟩

lemma GInv_foldl {pairs : List ScoredPair} {st : MapState} (h : GInv st) :
    GInv (pairs.foldl greedyStep st) := by
  induction pairs generalizing st with
  | nil => exact h
  | cons p ps ih => exact ih (GInv_greedyStep p h)

lemma GInv_greedy (pairs : List ScoredPair) : GInv (greedy pairs) :=
  GInv_foldl GInv_init

lemma greedy_foldl_mem {Q : String → String → Prop} :
    ∀ (pairs : List ScoredPair) (st : MapState),
    (∀ p ∈ pairs, Q p.source p.target) →
    (∀ pr ∈ st.mapping, Q pr.fst pr.snd) →
    ∀ pr ∈ (pairs.foldl greedyStep st).mapping, Q pr.fst pr.snd := by
  intro pairs
  induction pairs with
  | nil => intro st _ h0; exact h0
  | cons p ps ih =>
    intro st hq h0
    refine ih _ (fun r hr => hq r (List.mem_cons_of_mem _ hr)) ?_
    intro pr hpr
    rw [greedyStep] at hpr
    by_cases hc : p.source ∉ st.mappedSources ∧ p.target ∉ st.usedTargets
    · rw [if_pos hc] at hpr
      rcases mem_recordSet hpr with hold | hnew
      · exact h0 pr hold
      · rw [hnew]
        exact hq p (List.mem_cons_self _ _)
    · rw [if_neg hc] at hpr
      exact h0 pr hpr

lemma greedy_mem {Q : String → String → Prop} {pairs : List ScoredPair}
    (hq : ∀ p ∈ pairs, Q p.source p.target) :
    ∀ pr ∈ (greedy pairs).mapping, Q pr.fst pr.snd :=
  greedy_foldl_mem pairs _ hq (by simp)

/-! Fallback-pass lemmas. -/

lemma fallback_cons (s : String) (ss targetNames : List String) (st : MapState) :
    fallback (s :: ss) targetNames st =
      fallback ss targetNames (fallbackStep targetNames st s) := rfl

lemma fallbackStep_mappedSources (targetNames : List String) (st : MapState)
    (s : String) : (fallbackStep targetNames st s).mappedSources = st.mappedSources := by
  rw [fallbackStep]
  by_cases h1 : s ∈ st.mappedSources
  · rw [if_pos h1]
  · rw [if_neg h1]
    by_cases h2 : s ∈ targetNames ∧ s ∉ st.usedTargets
    · rw [if_pos h2]
    · rw [if_neg h2]

lemma fallback_mappedSources (sources targetNames : List String) (st : MapState) :
    (fallback sources targetNames st).mappedSources = st.mappedSources := by
  induction sources generalizing st with
  | nil => rfl
  | cons s ss ih =>
    rw [fallback_cons, ih, fallbackStep_mappedSources]

lemma fallbackStep_usedTargets_mono {a : String} {st : MapState}
    (targetNames : List String) (s : String) (h : a ∈ st.usedTargets) :
    a ∈ (fallbackStep targetNames st s).usedTargets := by
  rw [fallbackStep]
  by_cases h1 : s ∈ st.mappedSources
  · rw [if_pos h1]; exact h
  · rw [if_neg h1]
    by_cases h2 : s ∈ targetNames ∧ s ∉ st.usedTargets
    · rw [if_pos h2]; exact List.mem_cons_of_mem _ h
    · rw [if_neg h2]; exact h

lemma fallback_usedTargets_mono {a : String} :
    ∀ (sources : List String) (targetNames : List String) (st : MapState),
    a ∈ st.usedTargets → a ∈ (fallback sources targetNames st).usedTargets := by
  intro sources
  induction sources with
  | nil => intro _ st h; exact h
  | cons s ss ih =>
    intro tN st h
    exact ih tN _ (fallbackStep_usedTargets_mono tN s h)

lemma fallback_mem {Q : String → String → Prop} :
    ∀ (sources : List String) (targetNames : List String) (st : MapState),
    (∀ pr ∈ st.mapping, Q pr.fst pr.snd) →
    (∀ s ∈ sources, Q s s) →
    ∀ pr ∈ (fallback sources targetNames st).mapping, Q pr.fst pr.snd := by
  intro sources
  induction sources with
  | nil => intro _ st h0 _; exact h0
  | cons s ss ih =>
    intro tN st h0 hq
    refine ih tN _ ?_ (fun r hr => hq r (List.mem_cons_of_mem _ hr))
    intro pr hpr
    rw [fallbackStep] at hpr
    by_cases h1 : s ∈ st.mappedSources
    · rw [if_pos h1] at hpr
      exact h0 pr hpr
    · rw [if_neg h1] at hpr
      by_cases h2 : s ∈ tN ∧ s ∉ st.usedTargets
      · rw [if_pos h2] at hpr
        simp only at hpr
        rcases mem_recordSet hpr with hold | hnew
        · exact h0 pr hold
        · rw [hnew]; exact hq s (List.mem_cons_self _ _)
      · rw [if_neg h2] at hpr
        simp only at hpr
        rcases mem_recordSet hpr with hold | hnew
        · exact h0 pr hold
        · rw [hnew]; exact hq s (List.mem_cons_self _ _)

lemma fallbackStep_hasKey_mono {a : String} {st : MapState}
    (targetNames : List String) (s : String)
    (h : (recordGet st.mapping a).isSome = true) :
    (recordGet (fallbackStep targetNames st s).mapping a).isSome = true := by
  rw [fallbackStep]
  by_cases h1 : s ∈ st.mappedSources
  · rw [if_pos h1]; exact h
  · rw [if_neg h1]
    by_cases h2 : s ∈ targetNames ∧ s ∉ st.usedTargets
    · rw [if_pos h2]
      exact (recordGet_isSome_recordSet _ _ _).mpr (Or.inr h)
    · rw [if_neg h2]
      exact (recordGet_isSome_recordSet _ _ _).mpr (Or.inr h)

lemma fallbackStep_inv {st : MapState} (targetNames : List String) (s : String)
    (h : ∀ k ∈ st.mappedSources, (recordGet st.mapping k).isSome = true) :
    ∀ k ∈ (fallbackStep targetNames st s).mappedSources,
      (recordGet (fallbackStep targetNames st s).mapping k).isSome = true := by
  intro k hk
  have hk0 : k ∈ st.mappedSources := by
    rw [fallbackStep] at hk
    by_cases h1 : s ∈ st.mappedSources
    · rwa [if_pos h1] at hk
    · rw [if_neg h1] at hk
      by_cases h2 : s ∈ targetNames ∧ s ∉ st.usedTargets
      · rwa [if_pos h2] at hk
      · rwa [if_neg h2] at hk
  exact fallbackStep_hasKey_mono targetNames s (h k hk0)

lemma fallback_covers :
    ∀ (sources : List String) (targetNames : List String) (st : MapState),
    (∀ k ∈ st.mappedSources, (recordGet st.mapping k).isSome = true) →
    ∀ s ∈ sources, (recordGet (fallback sources targetNames st).mapping s).isSome = true := by
  intro sources
  induction sources with
  | nil => intro _ _ _ s hs; simp at hs
  | cons s ss ih =>
    intro tN st hinv t ht
    rcases List.mem_cons.mp ht with ht | ht
    · subst ht
      have hstep : (recordGet (fallbackStep tN st t).mapping t).isSome = true := by
        rw [fallbackStep]
        by_cases h1 : t ∈ st.mappedSources
        · rw [if_pos h1]
          exact hinv t h1
        · rw [if_neg h1]
          by_cases h2 : t ∈ tN ∧ t ∉ st.usedTargets
          · rw [if_pos h2]
            simp only
            rw [recordGet_recordSet_self]
            rfl
          · rw [if_neg h2]
            simp only
            rw [recordGet_recordSet_self]
            rfl
      -- key persists through the rest of the fallback fold
      suffices hmono : ∀ (l : List String) (st2 : MapState),
          (recordGet st2.mapping t).isSome = true →
          (recordGet (fallback l tN st2).mapping t).isSome = true by
        exact hmono ss _ hstep
      intro l
      induction l with
      | nil => intro st2 h2; exact h2
      | cons x xs ihx =>
        intro st2 h2
        exact ihx _ (fallbackStep_hasKey_mono tN x h2)
    · exact ih tN _ (fallbackStep_inv tN s hinv) t ht

lemma fallback_keys_nodup :
    ∀ (sources : List String) (targetNames : List String) (st : MapState),
    (keysOf st.mapping).Nodup → (keysOf (fallback sources targetNames st).mapping).Nodup := by
  intro sources
  induction sources with
  | nil => intro _ st h; exact h
  | cons s ss ih =>
    intro tN st h
    refine ih tN _ ?_
    rw [fallbackStep]
    by_cases h1 : s ∈ st.mappedSources
    · rw [if_pos h1]; exact h
    · rw [if_neg h1]
      by_cases h2 : s ∈ tN ∧ s ∉ st.usedTargets
      · rw [if_pos h2]
        exact nodup_keysOf_recordSet _ _ h
      · rw [if_neg h2]
        exact nodup_keysOf_recordSet _ _ h

lemma fallback_marks_used :
    ∀ (sources : List String) (targetNames : List String) (st : MapState) (s : String),
    s ∈ sources → s ∉ st.mappedSources → s ∈ targetNames →
    s ∈ (fallback sources targetNames st).usedTargets := by
  intro sources
  induction sources with
  | nil => intro _ _ s hs; simp at hs
  | cons x xs ih =>
    intro tN st s hs hnm htN
    rcases List.mem_cons.mp hs with hx | hx
    · subst hx
      have hstep : s ∈ (fallbackStep tN st s).usedTargets := by
        rw [fallbackStep, if_neg (by simpa using hnm)]
        by_cases h2 : s ∈ tN ∧ s ∉ st.usedTargets
        · rw [if_pos h2]
          exact List.mem_cons_self _ _
        · rw [if_neg h2]
          rcases not_and_or.mp h2 with h3 | h3
          · exact absurd htN h3
          · simpa using h3
      exact fallback_usedTargets_mono xs tN _ hstep
    · have hnm2 : s ∉ (fallbackStep tN st x).mappedSources := by
        rw [fallbackStep]
        by_cases h1 : x ∈ st.mappedSources
        · rwa [if_pos h1]
        · rw [if_neg h1]
          by_cases h2 : x ∈ tN ∧ x ∉ st.usedTargets
          · rwa [if_pos h2]
          · rwa [if_neg h2]
      exact ih tN _ s hx hnm2 htN

end babylonService

/-! ## Retargeting lemmas -/

namespace babylonService

lemma retargetTrack_eq_toList (targetSkeleton : List String) (mapping : Table)
    (tr : Track) :
    retargetTrack targetSkeleton mapping tr =
      (Option.toList
        (match recordGet mapping tr.boneName with
         | none => none
         | some t =>
           if t = "" then none
           else if t ∈ targetSkeleton then
             some { anim := tr.anim, boneName := t } else none)) := by
  rw [retargetTrack]
  cases recordGet mapping tr.boneName with
  | none => rfl
  | some t =>
    by_cases ht : t = ""
    · simp [ht]
    · by_cases hs : t ∈ targetSkeleton <;> simp [ht, hs, findBone_eq]

lemma retarget_tracks_filterMap (src : AnimGroup) (targetSkeleton : List String)
    (mapping : Table) :
    (retargetAnimationGroup src targetSkeleton mapping).tracks =
      src.tracks.filterMap (fun tr =>
        match recordGet mapping tr.boneName with
        | none => none
        | some t =>
          if t = "" then none
          else if t ∈ targetSkeleton then
            some { anim := tr.anim, boneName := t } else none) := by
  simp only [retargetAnimationGroup]
  rw [foldl_append_eq, List.nil_append, ← flatMap_toList_eq_filterMap]
  have hfun : retargetTrack targetSkeleton mapping = fun tr =>
      Option.toList
        (match recordGet mapping tr.boneName with
         | none => none
         | some t =>
           if t = "" then none
           else if t ∈ targetSkeleton then
             some { anim := tr.anim, boneName := t } else none) :=
    funext (retargetTrack_eq_toList targetSkeleton mapping)
  rw [hfun]

end babylonService

namespace BabylonCanvas

lemma retargetTrack_eq_service (targetSkeleton : List String) (mapping : Table)
    (tr : Track) (h1 : recordGet mapping tr.boneName ≠ none)
    (h2 : recordGet mapping tr.boneName ≠ some "") :
    retargetTrack targetSkeleton mapping tr =
      babylonService.retargetTrack targetSkeleton mapping tr := by
  rw [retargetTrack, babylonService.retargetTrack]
  cases hrec : recordGet mapping tr.boneName with
  | none => exact absurd hrec h1
  | some t =>
    have ht : ¬ t = "" := by
      intro he
      rw [he] at hrec
      exact h2 hrec
    simp [ht]

lemma mapStep_shape (targets : List String) (st : Table × List String)
    (sourceName : String) :
    ∃ v avail, mapStep targets st sourceName = (recordSet st.fst sourceName v, avail) := by
  rw [mapStep]
  split
  · split
    · exact ⟨_, _, rfl⟩
    · exact ⟨_, _, rfl⟩
  · exact ⟨_, _, rfl⟩

lemma foldl_mapStep_covers :
    ∀ (sources : List String) (targets : List String) (st : Table × List String)
      (a : String),
    ((recordGet st.fst a).isSome = true ∨ a ∈ sources) →
    (recordGet (sources.foldl (mapStep targets) st).fst a).isSome = true := by
  intro sources
  induction sources with
  | nil =>
    intro _ st a h
    rcases h with h | h
    · exact h
    · simp at h
  | cons s ss ih =>
    intro targets st a h
    rw [List.foldl_cons]
    apply ih
    rcases mapStep_shape targets st s with ⟨v, avail, heq⟩
    rcases h with h | h
    · left
      rw [heq]
      exact (recordGet_isSome_recordSet _ _ _).mpr (Or.inr h)
    · rcases List.mem_cons.mp h with h | h
      · left
        rw [heq, h]
        exact (recordGet_isSome_recordSet _ _ _).mpr (Or.inl rfl)
      · exact Or.inr h

lemma canvasAutoMap_covers {sources targetSkeleton : List String} {s : String}
    (hs : s ∈ sources) :
    (recordGet (autoMapBones sources targetSkeleton) s).isSome = true := by
  rw [autoMapBones]
  exact foldl_mapStep_covers sources targetSkeleton _ s (Or.inr hs)

end BabylonCanvas

lemma length_eq_of_nodup_mem_iff {l1 l2 : List String}
    (h1 : l1.Nodup) (h2 : l2.Nodup) (h : ∀ a, a ∈ l1 ↔ a ∈ l2) :
    l1.length = l2.length := by
  have hset : l1.toFinset = l2.toFinset := by
    apply Finset.ext
    intro a
    simp [List.mem_toFinset, h a]
  rw [← List.toFinset_card_of_nodup h1, ← List.toFinset_card_of_nodup h2, hset]

namespace babylonService

lemma getScore_self_gt_one (sf : Features) : getScore sf sf > 1 := by
  have h : getScore sf sf =
      50 + (keywordMatches sf sf : Int) * 20 +
        (if sf.keywords.length > 0 ∧ sf.keywords.length > 0 ∧
            keywordMatches sf sf = 0 then (1 : Int) else 0) := by
    simp [getScore]
  rw [h]
  split <;> omega

lemma sorted_pairs_score {sources targetNames : List String} {p : ScoredPair}
    (hp : p ∈ sortPairs (allPairs sources targetNames)) :
    getScore (featuresOf p.source) (featuresOf p.target) > 1 := by
  rcases allPairs_mem (mem_sortPairs hp) with ⟨_, _, hsc, hgt⟩
  rw [← hsc]
  exact hgt

lemma greedy_score_gt_one {sources targetSkeleton : List String} :
    ∀ pr ∈ (greedyState sources targetSkeleton).mapping,
      getScore (featuresOf pr.fst) (featuresOf pr.snd) > 1 :=
  @greedy_mem (fun s t => getScore (featuresOf s) (featuresOf t) > 1)
    (sortPairs (allPairs sources (dedupFirst targetSkeleton)))
    (fun _ hp => sorted_pairs_score hp)

lemma autoMap_score_gt_one {sources targetSkeleton : List String} :
    ∀ pr ∈ autoMapBones sources targetSkeleton,
      getScore (featuresOf pr.fst) (featuresOf pr.snd) > 1 :=
  @fallback_mem (fun s t => getScore (featuresOf s) (featuresOf t) > 1)
    sources (dedupFirst targetSkeleton) (greedyState sources targetSkeleton)
    greedy_score_gt_one
    (fun s _ => getScore_self_gt_one (featuresOf s))

lemma getScore_opposite {n1 n2 : String}
    (hopp : (sideOf n1 = Side.left ∧ sideOf n2 = Side.right) ∨
            (sideOf n1 = Side.right ∧ sideOf n2 = Side.left)) :
    getScore (featuresOf n1) (featuresOf n2) = -1 := by
  have h1 : (featuresOf n1).side = sideOf n1 := rfl
  have h2 : (featuresOf n2).side = sideOf n2 := rfl
  rcases hopp with ⟨ha, hb⟩ | ⟨ha, hb⟩ <;>
    simp [getScore, h1, h2, ha, hb]

lemma autoMapBones_covers {sources targetSkeleton : List String} {s : String}
    (hs : s ∈ sources) :
    (recordGet (autoMapBones sources targetSkeleton) s).isSome = true :=
  fallback_covers sources (dedupFirst targetSkeleton) (greedyState sources targetSkeleton)
    (GInv_greedy _).2.1 s hs

end babylonService

/-! ## Claim theorems -/

/-- C1: Side veto.  For every pair of bone names whose extracted features
have side Left on one and side Right on the other, `getScore` returns the
invalid sentinel -1; and for every source list and target skeleton,
`autoMapBones` never maps the one name to the other — neither in the greedy
assignment pass (`greedyState`) nor in the final table produced after the
fallback pass. -/
theorem C1_side_veto (n1 n2 : String)
    (hopp : (babylonService.sideOf n1 = Side.left ∧
             babylonService.sideOf n2 = Side.right) ∨
            (babylonService.sideOf n1 = Side.right ∧
             babylonService.sideOf n2 = Side.left)) :
    babylonService.getScore (babylonService.featuresOf n1)
      (babylonService.featuresOf n2) = -1 ∧
    (∀ sources targetSkeleton : List String,
      recordGet (babylonService.greedyState sources targetSkeleton).mapping n1 ≠
        some n2) ∧
    (∀ sources targetSkeleton : List String,
      recordGet (babylonService.autoMapBones sources targetSkeleton) n1 ≠
        some n2) := by
  have hscore := babylonService.getScore_opposite hopp
  refine ⟨hscore, ?_, ?_⟩
  · intro sources targetSkeleton hget
    have hmem := recordGet_mem hget
    have := babylonService.greedy_score_gt_one (n1, n2) hmem
    rw [hscore] at this
    omega
  · intro sources targetSkeleton hget
    have hmem := recordGet_mem hget
    have := babylonService.autoMap_score_gt_one (n1, n2) hmem
    rw [hscore] at this
    omega

/-- Witness for C1 at the concrete opposite-side pair "la" / "ra". -/
theorem C1_side_veto_witness :
    babylonService.getScore (babylonService.featuresOf "la")
      (babylonService.featuresOf "ra") = -1 ∧
    recordGet (babylonService.autoMapBones ["la"] ["ra"]) "la" ≠ some "ra" := by
  have h := C1_side_veto "la" "ra" (Or.inl ⟨by decide, by decide⟩)
  exact ⟨h.1, h.2.2 ["la"] ["ra"]⟩

/-- C2 as stated is false: a duplicated source name collapses to a single
table entry, so the table can have fewer entries than the source list.
With sources = ["a", "a"] and an empty target skeleton the table has one
entry while the source list has two names. -/
theorem C2_counterexample :
    ¬ ((babylonService.autoMapBones ["a", "a"] []).length =
        (["a", "a"] : List String).length) := by
  decide

/-- C2 (amended): `autoMapBones` returns a table with an entry for every
source name, and the number of entries equals the number of distinct names
in the source list. -/
theorem C2_total_coverage (sources targetSkeleton : List String) :
    (∀ s ∈ sources,
      (recordGet (babylonService.autoMapBones sources targetSkeleton) s).isSome = true) ∧
    (babylonService.autoMapBones sources targetSkeleton).length =
      (dedupFirst sources).length := by
  constructor
  · intro s hs
    exact babylonService.autoMapBones_covers hs
  · have hkeys_nodup :
        (keysOf (babylonService.autoMapBones sources targetSkeleton)).Nodup :=
      babylonService.fallback_keys_nodup sources (dedupFirst targetSkeleton)
        (babylonService.greedyState sources targetSkeleton)
        (babylonService.GInv_greedy _).2.2.1
    have hsub : ∀ pr ∈ babylonService.autoMapBones sources targetSkeleton,
        pr.fst ∈ sources :=
      @babylonService.fallback_mem (fun s _ => s ∈ sources)
        sources (dedupFirst targetSkeleton)
        (babylonService.greedyState sources targetSkeleton)
        (@babylonService.greedy_mem (fun s _ => s ∈ sources)
          (sortPairs (babylonService.allPairs sources (dedupFirst targetSkeleton)))
          (fun _ hp => (babylonService.allPairs_mem (mem_sortPairs hp)).1))
        (fun _ hs => hs)
    have hmem : ∀ a, a ∈ keysOf (babylonService.autoMapBones sources targetSkeleton) ↔
        a ∈ dedupFirst sources := by
      intro a
      rw [mem_dedupFirst]
      constructor
      · intro h
        rcases mem_keysOf.mp h with ⟨v, hv⟩
        exact hsub (a, v) hv
      · intro h
        rw [← recordGet_isSome_iff_mem_keysOf]
        exact babylonService.autoMapBones_covers h
    have hlen := length_eq_of_nodup_mem_iff hkeys_nodup (nodup_dedupFirst sources) hmem
    rw [← hlen]
    simp [keysOf]

/-- Witness for C2 at a concrete input. -/
theorem C2_total_coverage_witness :
    (recordGet (babylonService.autoMapBones ["a", "b"] ["c"]) "a").isSome = true ∧
    (babylonService.autoMapBones ["a", "b"] ["c"]).length =
      (dedupFirst ["a", "b"]).length :=
  ⟨(C2_total_coverage ["a", "b"] ["c"]).1 "a" (by simp),
   (C2_total_coverage ["a", "b"] ["c"]).2⟩

/-- C7: Scenario — mixamo-prefixed arms and head map onto the bare-named
target bones as expected. -/
theorem C7_scenario :
    recordGet (babylonService.autoMapBones
      ["mixamorig:LeftArm", "mixamorig:RightArm", "mixamorig:Head"]
      ["LeftArm", "RightArm", "Head", "Spine"]) "mixamorig:LeftArm" =
        some "LeftArm" ∧
    recordGet (babylonService.autoMapBones
      ["mixamorig:LeftArm", "mixamorig:RightArm", "mixamorig:Head"]
      ["LeftArm", "RightArm", "Head", "Spine"]) "mixamorig:RightArm" =
        some "RightArm" ∧
    recordGet (babylonService.autoMapBones
      ["mixamorig:LeftArm", "mixamorig:RightArm", "mixamorig:Head"]
      ["LeftArm", "RightArm", "Head", "Spine"]) "mixamorig:Head" =
        some "Head" := by
  decide

/-- C3: Retarget drop semantics.  A track whose bone has no mapping entry or
an empty one is dropped; a non-empty entry naming a bone absent from the
target skeleton is dropped silently; otherwise exactly one clone of the
track, rebound to that target bone, is emitted. -/
theorem C3_retarget_drop (src : AnimGroup) (targetSkeleton : List String)
    (mapping : Table) :
    (babylonService.retargetAnimationGroup src targetSkeleton mapping).tracks =
      src.tracks.filterMap (fun tr =>
        match recordGet mapping tr.boneName with
        | none => none
        | some t =>
          if t = "" then none
          else if t ∈ targetSkeleton then
            some { anim := tr.anim, boneName := t } else none) :=
  babylonService.retarget_tracks_filterMap src targetSkeleton mapping

/-- Witness for C3: a concrete two-track clip where one track survives and
one is dropped. -/
theorem C3_retarget_drop_witness :
    (babylonService.retargetAnimationGroup
        ⟨"g", [⟨0, "A"⟩, ⟨1, "C"⟩], 0, 10⟩ ["B"] [("A", "B"), ("C", "")]).tracks =
      ([⟨0, "A"⟩, ⟨1, "C"⟩] : List Track).filterMap (fun tr =>
        match recordGet [("A", "B"), ("C", "")] tr.boneName with
        | none => none
        | some t =>
          if t = "" then none
          else if t ∈ ["B"] then
            some { anim := tr.anim, boneName := t } else none) :=
  C3_retarget_drop ⟨"g", [⟨0, "A"⟩, ⟨1, "C"⟩], 0, 10⟩ ["B"] [("A", "B"), ("C", "")]

/-- C5: Retarget track-count bound.  The retargeted group never has more
tracks than the source clip, and the counts are equal exactly when every
bone name used by the clip has a non-empty mapping entry resolving to a bone
of the target skeleton. -/
theorem C5_track_count_bound (src : AnimGroup) (targetSkeleton : List String)
    (mapping : Table) :
    (babylonService.retargetAnimationGroup src targetSkeleton mapping).tracks.length ≤
      src.tracks.length ∧
    ((babylonService.retargetAnimationGroup src targetSkeleton mapping).tracks.length =
        src.tracks.length ↔
      ∀ tr ∈ src.tracks, ∃ t, recordGet mapping tr.boneName = some t ∧
        t ≠ "" ∧ t ∈ targetSkeleton) := by
  rw [babylonService.retarget_tracks_filterMap]
  constructor
  · exact length_filterMap_le_length _ _
  · rw [length_filterMap_eq_iff]
    constructor
    · intro h tr htr
      have hsome := h tr htr
      cases hrec : recordGet mapping tr.boneName with
      | none => simp [hrec] at hsome
      | some t =>
        by_cases ht : t = ""
        · simp [hrec, ht] at hsome
        · by_cases hs : t ∈ targetSkeleton
          · exact ⟨t, rfl, ht, hs⟩
          · simp [hrec, ht, hs] at hsome
    · intro h tr htr
      rcases h tr htr with ⟨t, hrec, ht, hs⟩
      simp [hrec, ht, hs]

/-- Witness for C5 at a concrete clip, skeleton and mapping. -/
theorem C5_track_count_bound_witness :
    (babylonService.retargetAnimationGroup
        ⟨"g", [⟨0, "A"⟩], 0, 10⟩ ["B"] [("A", "B")]).tracks.length ≤
      ([⟨0, "A"⟩] : List Track).length ∧
    ((babylonService.retargetAnimationGroup
        ⟨"g", [⟨0, "A"⟩], 0, 10⟩ ["B"] [("A", "B")]).tracks.length =
        ([⟨0, "A"⟩] : List Track).length ↔
      ∀ tr ∈ ([⟨0, "A"⟩] : List Track), ∃ t,
        recordGet [("A", "B")] tr.boneName = some t ∧ t ≠ "" ∧ t ∈ ["B"]) :=
  C5_track_count_bound ⟨"g", [⟨0, "A"⟩], 0, 10⟩ ["B"] [("A", "B")]

/-- C6: Fallback pass.  Every source bone the greedy pass left unassigned is
mapped to its own name verbatim; when a target bone of identical name exists
the fallback marks it used; and no source bone is ever absent from the
returned table. -/
theorem C6_fallback (sources targetSkeleton : List String) (s : String)
    (hs : s ∈ sources)
    (hunassigned : s ∉ (babylonService.greedyState sources targetSkeleton).mappedSources) :
    recordGet (babylonService.autoMapBones sources targetSkeleton) s = some s ∧
    (s ∈ dedupFirst targetSkeleton →
      s ∈ (babylonService.fallback sources (dedupFirst targetSkeleton)
            (babylonService.greedyState sources targetSkeleton)).usedTargets) ∧
    (∀ x ∈ sources,
      recordGet (babylonService.autoMapBones sources targetSkeleton) x ≠ none) := by
  refine ⟨?_, ?_, ?_⟩
  · have hkey := @babylonService.autoMapBones_covers sources targetSkeleton s hs
    cases hrec : recordGet (babylonService.autoMapBones sources targetSkeleton) s with
    | none => rw [hrec] at hkey; simp at hkey
    | some v =>
      have hv : s ∈ (babylonService.greedyState sources targetSkeleton).mappedSources ∨
          v = s :=
        @babylonService.fallback_mem
          (fun k w => k ∈ (babylonService.greedyState sources targetSkeleton).mappedSources ∨
            w = k)
          sources (dedupFirst targetSkeleton)
          (babylonService.greedyState sources targetSkeleton)
          (fun pr hpr =>
            Or.inl ((babylonService.GInv_greedy _).1 pr hpr).1)
          (fun x _ => Or.inr rfl)
          (s, v) (recordGet_mem hrec)
      rcases hv with hv | hv
      · exact absurd hv hunassigned
      · rw [hv]
  · intro htn
    exact babylonService.fallback_marks_used sources (dedupFirst targetSkeleton) _ s
      hs hunassigned htn
  · intro x hx hnone
    have := @babylonService.autoMapBones_covers sources targetSkeleton x hx
    rw [hnone] at this
    simp at this

/-- Witness for C6: with no target bones, the greedy pass assigns nothing
and the fallback maps the source bone to itself. -/
theorem C6_fallback_witness :
    ("zq" : String) ∈ ["zq"] ∧
    recordGet (babylonService.autoMapBones ["zq"] []) "zq" = some "zq" :=
  ⟨by simp, (C6_fallback ["zq"] [] "zq" (by simp) (by decide)).1⟩

/-- C8: Injectivity-when-possible.  Under the claim's hypotheses (the source
list is no longer than the target bone list, and some family of disjoint
above-threshold pairs covers every source), the greedy assignment pass maps
two sources to the same target only if they are equal. -/
theorem C8_injectivity (sources targetSkeleton : List String)
    (hlen : sources.length ≤ targetSkeleton.length)
    (hex : ∃ f : String → String,
      (∀ s ∈ sources, f s ∈ targetSkeleton ∧
        babylonService.getScore (babylonService.featuresOf s)
          (babylonService.featuresOf (f s)) > 1) ∧
      (∀ s1 ∈ sources, ∀ s2 ∈ sources, f s1 = f s2 → s1 = s2))
    (s1 s2 t : String)
    (h1 : recordGet (babylonService.greedyState sources targetSkeleton).mapping s1 =
      some t)
    (h2 : recordGet (babylonService.greedyState sources targetSkeleton).mapping s2 =
      some t) :
    s1 = s2 :=
  (babylonService.GInv_greedy
      (sortPairs (babylonService.allPairs sources (dedupFirst targetSkeleton)))).2.2.2
    (s1, t) (s2, t) (recordGet_mem h1) (recordGet_mem h2) rfl

/-- Witness for C8 with sources = ["a"], targets = ["a"] and the identity
assignment as the disjoint high-scoring family. -/
theorem C8_injectivity_witness : ("a" : String) = "a" :=
  C8_injectivity ["a"] ["a"] (by simp)
    ⟨fun s => s,
     fun s hs => by
       rcases List.mem_singleton.mp hs with rfl
       exact ⟨by simp, by decide⟩,
     fun s1 _ s2 _ hf => hf⟩
    "a" "a" "a" (by decide) (by decide)

lemma foldl_append_congr {α β : Type} (l : List α) (g1 g2 : α → List β)
    (h : ∀ x ∈ l, g1 x = g2 x) (acc : List β) :
    l.foldl (fun a x => a ++ g1 x) acc = l.foldl (fun a x => a ++ g2 x) acc := by
  induction l generalizing acc with
  | nil => rfl
  | cons x xs ih =>
    simp only [List.foldl_cons]
    rw [h x (List.mem_cons_self _ _)]
    exact ih (fun y hy => h y (List.mem_cons_of_mem _ hy)) _

/-- C4: Pairwise score reference definition.  On the side combinations the
claim enumerates (same non-center side; exactly one Center; Left vs Right),
the scorer returns the claimed side bonus plus 20 per shared keyword plus
the flat tie-breaker 1; and the auto-mapper's candidate list retains only
pairs scoring strictly above 1, the sorted list fed to the assignment pass
drawing only from it. -/
theorem C4_score_reference :
    (∀ sf tf : Features,
      (sf.side = tf.side → sf.side ≠ Side.center →
        babylonService.getScore sf tf =
          50 + (keywordMatches sf tf : Int) * 20 +
            (if sf.keywords.length > 0 ∧ tf.keywords.length > 0 ∧
                keywordMatches sf tf = 0 then (1 : Int) else 0)) ∧
      ((sf.side = Side.center ∧ tf.side ≠ Side.center) ∨
       (sf.side ≠ Side.center ∧ tf.side = Side.center) →
        babylonService.getScore sf tf =
          25 + (keywordMatches sf tf : Int) * 20 +
            (if sf.keywords.length > 0 ∧ tf.keywords.length > 0 ∧
                keywordMatches sf tf = 0 then (1 : Int) else 0)) ∧
      ((sf.side = Side.left ∧ tf.side = Side.right) ∨
       (sf.side = Side.right ∧ tf.side = Side.left) →
        babylonService.getScore sf tf = -1)) ∧
    (∀ (sources targetNames : List String) (p : ScoredPair),
      p ∈ babylonService.allPairs sources targetNames → p.score > 1) ∧
    (∀ (sources targetNames : List String) (p : ScoredPair),
      p ∈ sortPairs (babylonService.allPairs sources targetNames) →
        p ∈ babylonService.allPairs sources targetNames) := by
  refine ⟨?_, ?_, ?_⟩
  · intro sf tf
    refine ⟨?_, ?_, ?_⟩
    · intro hside _
      simp [babylonService.getScore, hside]
    · intro hone
      rcases hone with ⟨hc, hnc⟩ | ⟨hnc, hc⟩
      · have hne : ¬ sf.side = tf.side := by rw [hc]; exact fun hh => hnc hh.symm
        simp [babylonService.getScore, hne, hc]
        exact fun hh => hnc hh.symm
      · have hne : ¬ sf.side = tf.side := by
          intro hh
          rw [hh] at hnc
          exact hnc hc
        simp [babylonService.getScore, hne, hc]
        exact hnc
    · intro hopp
      rcases hopp with ⟨ha, hb⟩ | ⟨ha, hb⟩ <;>
        simp [babylonService.getScore, ha, hb]
  · intro sources targetNames p hp
    exact (babylonService.allPairs_mem hp).2.2.2
  · intro sources targetNames p hp
    exact mem_sortPairs hp

/-- Witness for C4 at concrete feature pairs and a concrete candidate
list. -/
theorem C4_score_reference_witness :
    babylonService.getScore (babylonService.featuresOf "leftarm")
      (babylonService.featuresOf "leftthigh") = 51 ∧
    babylonService.getScore (babylonService.featuresOf "head")
      (babylonService.featuresOf "leftarm") = 26 ∧
    babylonService.getScore (babylonService.featuresOf "la")
      (babylonService.featuresOf "ra") = -1 ∧
    (⟨"a", "b", 50⟩ : ScoredPair).score > 1 ∧
    (⟨"a", "b", 50⟩ : ScoredPair) ∈ babylonService.allPairs ["a"] ["b"] := by
  obtain ⟨hcase, hpairs, hsort⟩ := C4_score_reference
  refine ⟨?_, ?_, ?_, ?_, ?_⟩
  · have h := (hcase (babylonService.featuresOf "leftarm")
      (babylonService.featuresOf "leftthigh")).1 (by decide) (by decide)
    rw [h]
    decide
  · have h := (hcase (babylonService.featuresOf "head")
      (babylonService.featuresOf "leftarm")).2.1 (Or.inl ⟨by decide, by decide⟩)
    rw [h]
    decide
  · exact (hcase _ _).2.2 (Or.inl ⟨by decide, by decide⟩)
  · exact hpairs ["a"] ["b"] _ (by decide)
  · exact hsort ["a"] ["b"] _ (by decide)

/-- C9 fails as stated: with an absent mapping entry the canvas retargeter
falls back to the source bone name and keeps the track, while the service
retargeter drops it.  Concretely: one track on bone "A", empty mapping,
target skeleton containing "A". -/
theorem C9_counterexample :
    babylonService.retargetAnimationGroup ⟨"g", [⟨0, "A"⟩], 0, 10⟩ ["A"] [] ≠
      BabylonCanvas.retargetAnimationGroup ⟨"g", [⟨0, "A"⟩], 0, 10⟩ ["A"] [] := by
  decide

/-- C9 (amended): the two retargeting implementations agree whenever every
track's bone name has a present, non-empty mapping entry; they differ when
an entry is absent or empty. -/
theorem C9_retarget_agreement (src : AnimGroup) (targetSkeleton : List String)
    (mapping : Table)
    (h : ∀ tr ∈ src.tracks, recordGet mapping tr.boneName ≠ none ∧
          recordGet mapping tr.boneName ≠ some "") :
    BabylonCanvas.retargetAnimationGroup src targetSkeleton mapping =
      babylonService.retargetAnimationGroup src targetSkeleton mapping := by
  have htracks := foldl_append_congr src.tracks
    (BabylonCanvas.retargetTrack targetSkeleton mapping)
    (babylonService.retargetTrack targetSkeleton mapping)
    (fun tr htr =>
      BabylonCanvas.retargetTrack_eq_service targetSkeleton mapping tr
        (h tr htr).1 (h tr htr).2) []
  simp only [BabylonCanvas.retargetAnimationGroup,
    babylonService.retargetAnimationGroup]
  rw [htracks]

/-- Witness for C9 at a concrete fully-mapped clip. -/
theorem C9_retarget_agreement_witness :
    (recordGet [("A", "B")] "A" ≠ none) ∧
    BabylonCanvas.retargetAnimationGroup ⟨"g", [⟨0, "A"⟩], 0, 10⟩ ["B"] [("A", "B")] =
      babylonService.retargetAnimationGroup ⟨"g", [⟨0, "A"⟩], 0, 10⟩ ["B"]
        [("A", "B")] :=
  ⟨by decide, C9_retarget_agreement ⟨"g", [⟨0, "A"⟩], 0, 10⟩ ["B"] [("A", "B")]
    (by decide)⟩

/-- C10 fails as stated: the two auto-mappers disagree already on sources =
["l"] with a single target bone "a" — the service scorer awards 25 to a
side/center pair and maps "l" to "a", while the canvas scorer awards 0 and
falls back to the self-mapping. -/
theorem C10_counterexample :
    babylonService.autoMapBones ["l"] ["a"] ≠
      BabylonCanvas.autoMapBones ["l"] ["a"] := by
  decide

/-- C10 (amended): the two auto-mapping implementations do not return
identical tables in general; what both guarantee is totality — each returns
a table with an entry for every source name. -/
theorem C10_both_total (sources targetSkeleton : List String) :
    (∀ s ∈ sources,
      (recordGet (babylonService.autoMapBones sources targetSkeleton) s).isSome = true) ∧
    (∀ s ∈ sources,
      (recordGet (BabylonCanvas.autoMapBones sources targetSkeleton) s).isSome = true) :=
  ⟨fun _ hs => babylonService.autoMapBones_covers hs,
   fun _ hs => BabylonCanvas.canvasAutoMap_covers hs⟩

/-- Witness for C10 at a concrete source list. -/
theorem C10_both_total_witness :
    (recordGet (babylonService.autoMapBones ["x"] ["y"]) "x").isSome = true ∧
    (recordGet (BabylonCanvas.autoMapBones ["x"] ["y"]) "x").isSome = true :=
  ⟨(C10_both_total ["x"] ["y"]).1 "x" (by simp),
   (C10_both_total ["x"] ["y"]).2 "x" (by simp)⟩
